import Mathlib

/-!
Verification of the Monday BI agent (app.py): a shallow embedding of its
data-normalization pipeline (fetch_and_clean) and of its query engine
(run_bi_agent), together with theorems settling the specified properties.

Strings are modelled as Lean `String`s; character-level operations work on
`String.data : List Char`.  Floating-point cell values are modelled as exact
rationals (`ℚ`); all concrete values appearing in the claims are exactly
representable, so no rounding behaviour is lost.  Effectful boundaries
(the HTTP fetch, the two language-model calls, the `exec` sandbox) are
modelled as explicit outcome values / oracle functions, so that the pure
control flow of the source is captured faithfully.
-/

/-- Python whitespace characters as recognised by str.strip and regex \s
(ASCII fragment, which is all the source ever feeds it). -/
def wsChar (c : Char) : Bool :=
  c == ' ' || c == '\t' || c == '\n' || c == '\r' || c == '\x0b' || c == '\x0c'

/-- Left strip: drop leading whitespace, as Python str.strip does on the left. -/
def lstripL (l : List Char) : List Char := l.dropWhile wsChar

/-- Right strip: drop trailing whitespace, as Python str.strip does on the right. -/
def rstripL (l : List Char) : List Char := (l.reverse.dropWhile wsChar).reverse

/-- Python str.strip(): whitespace removed from both ends. -/
def stripL (l : List Char) : List Char := rstripL (lstripL l)

/-- Regex word character \w (ASCII fragment): alphanumeric or underscore. -/
def wordChar (c : Char) : Bool := c.isAlphanum || c == '_'

/-- Embedding of line 80 of app.py, applied to one column title:
re.sub(r'[^\w\s]', ' ', col).strip() — every character that is neither a
word character nor whitespace becomes a single space, then both ends are
stripped. -/
def sanitizeChars (l : List Char) : List Char :=
  stripL (l.map (fun c => if wordChar c || wsChar c then c else ' '))

/-- String-level wrapper of the column-title sanitization of line 80. -/
def sanitizeTitle (s : String) : String := ⟨sanitizeChars s.data⟩

/-- lstarts pat l: pat is an initial run of l (character-exact). -/
def lstarts : List Char → List Char → Bool
  | [], _ => true
  | _ :: _, [] => false
  | p :: ps, c :: cs => p == c && lstarts ps cs

/-- lsub pat l: pat occurs contiguously inside l — the embedding of
Python's `pat in l` substring test. -/
def lsub (pat : List Char) : List Char → Bool
  | [] => lstarts pat []
  | c :: cs => lstarts pat (c :: cs) || lsub pat cs

/-- Lower-casing of a title (ASCII, matching the keywords the source compares
against), embedding col.lower() on line 87. -/
def lowerStr (s : String) : String := ⟨s.data.map Char.toLower⟩

/-- money_keywords of line 83 of app.py. -/
def moneyKeywords : List String :=
  ["value", "amount", "revenue", "budget", "cost", "price"]

/-- exclude_keywords of line 84 of app.py. -/
def excludeKeywords : List String :=
  ["status", "stage", "date", "id", "code", "name", "probability", "sector"]

/-- Embedding of lines 87-91 of app.py: a column is coerced to numeric iff
some money keyword occurs in the lower-cased title and no exclude keyword
does. -/
def isMoneyTitle (s : String) : Bool :=
  (moneyKeywords.any fun k => lsub k.data (lowerStr s).data) &&
  !(excludeKeywords.any fun k => lsub k.data (lowerStr s).data)

/-- Characters kept by the replace on line 92 of app.py
(regex [^\d.] removes everything else). -/
def keepChar (c : Char) : Bool := c.isDigit || c == '.'

/-- Value of a digit string read in base 10. -/
def digitsVal (l : List Char) : ℕ :=
  l.foldl (fun n c => 10 * n + (c.toNat - 48)) 0

/-- Embedding of pd.to_numeric(· , errors='coerce') on line 93 of app.py,
on its actual input alphabet: after the replace of line 92 a cell contains
only digits and dots.  A string parses iff it has at most one dot and at
least one digit; otherwise the result is NaN, modelled as `none`. -/
def toNumericF (l : List Char) : Option ℚ :=
  if l.all keepChar then
    let ip := l.takeWhile (fun c => c != '.')
    match l.dropWhile (fun c => c != '.') with
    | [] => if ip.isEmpty then none else some (digitsVal ip)
    | _ :: frac =>
      if frac.contains '.' then none
      else if ip.isEmpty && frac.isEmpty then none
      else some ((digitsVal ip : ℚ) + (digitsVal frac : ℚ) / (10 : ℚ) ^ frac.length)
  else none

/-- Embedding of the per-cell effect of lines 92-94 of app.py on a money
column: strip every character that is not a digit or dot, parse, substitute
0 for a failed parse (fillna(0)), then zero any value strictly above 10^12. -/
def moneyCoerce (l : List Char) : ℚ :=
  let v := (toNumericF (l.filter keepChar)).getD 0
  if v > (10 : ℚ) ^ 12 then 0 else v

/-- Restatement of the coercion algorithm following the wording of the
specification (section 4.2): "strip every character that is not a digit or
decimal point from each cell; parse as a floating-point number; on parse
failure substitute 0; then zero out any resulting value exceeding 1×10¹²."
The parse here is phrased independently: a string of digits and at most one
dot, holding at least one digit, denotes (all its digits read as an integer)
divided by 10 to the number of digits after the dot. -/
def specParse (l : List Char) : Option ℚ :=
  if l.all (fun c => c.isDigit || c == '.') && l.any Char.isDigit &&
      decide (l.count '.' ≤ 1) then
    some ((digitsVal (l.filter Char.isDigit) : ℚ) /
      (10 : ℚ) ^ ((l.dropWhile (fun c => c != '.')).drop 1).length)
  else none

/-- Spec-side money coercion (see specParse). -/
def moneyCoerceSpec (l : List Char) : ℚ :=
  let v := (specParse (l.filter (fun c => c.isDigit || c == '.'))).getD 0
  if v > (10 : ℚ) ^ 12 then 0 else v

example : sanitizeTitle "Deal Value ($)" = "Deal Value" := by decide
example : isMoneyTitle "Probability" = false := by decide
example : isMoneyTitle "Deal Value" = true := by decide
example : "$1,200.50".data.filter keepChar = "1200.50".data := by decide

lemma digitsVal_go (n : ℕ) (b : List Char) :
    b.foldl (fun n c => 10 * n + (c.toNat - 48)) n = n * 10 ^ b.length + digitsVal b := by
  induction b generalizing n with
  | nil => simp [digitsVal]
  | cons c cs ih =>
    simp only [List.foldl_cons, List.length_cons, digitsVal]
    rw [ih, ih (10 * 0 + (c.toNat - 48))]
    ring

lemma digitsVal_append (a b : List Char) :
    digitsVal (a ++ b) = digitsVal a * 10 ^ b.length + digitsVal b := by
  unfold digitsVal
  rw [List.foldl_append, digitsVal_go]
  rfl

lemma dropWhile_head_false {p : Char → Bool} {l : List Char} {c : Char} {cs : List Char}
    (h : l.dropWhile p = c :: cs) : p c = false := by
  induction l with
  | nil => simp [List.dropWhile] at h
  | cons x xs ih =>
    rw [List.dropWhile_cons] at h
    by_cases hx : p x = true
    · rw [if_pos hx] at h; exact ih h
    · rw [if_neg hx] at h
      cases h
      exact Bool.not_eq_true _ |>.mp hx

/-- The parser embedded from the code and the parser phrased after the spec
agree on every input. -/
theorem toNumericF_eq_specParse (l : List Char) : toNumericF l = specParse l := by
  unfold toNumericF specParse
  by_cases hall : l.all keepChar = true
  · have hall' : l.all (fun c => c.isDigit || c == '.') = true := hall
    rw [if_pos hall]
    simp only [hall', Bool.true_and]
    rcases hdw : l.dropWhile (fun c => c != '.') with _ | ⟨d, frac⟩
    · -- no dot anywhere in l
      have hnodot : ∀ c ∈ l, ¬(c = '.') := by
        intro c hc
        have := (List.dropWhile_eq_nil_iff).mp hdw c hc
        simpa using this
      have htw : l.takeWhile (fun c => c != '.') = l :=
        List.takeWhile_eq_self_iff.mpr (by intro c hc; simpa using hnodot c hc)
      have hdig : ∀ c ∈ l, c.isDigit = true := by
        intro c hc
        have hk := List.all_eq_true.mp hall c hc
        simp only [keepChar, Bool.or_eq_true] at hk
        rcases hk with h | h
        · exact h
        · exact absurd (by simpa using h) (hnodot c hc)
      rw [htw]
      cases l with
      | nil => simp
      | cons c cs =>
        have hany : (c :: cs).any Char.isDigit = true :=
          List.any_eq_true.mpr ⟨c, List.mem_cons_self c cs, hdig c (List.mem_cons_self c cs)⟩
        have hcount : (c :: cs).count '.' = 0 :=
          List.count_eq_zero.mpr (fun hm => hnodot _ hm rfl)
        have hfil : (c :: cs).filter Char.isDigit = c :: cs :=
          List.filter_eq_self.mpr hdig
        simp [hany, hcount, hfil]
    · -- l splits as ip ++ '.' :: frac
      have hd : d = '.' := by
        have := dropWhile_head_false hdw
        simpa using this
      subst hd
      dsimp only
      have hsplit : l.takeWhile (fun c => c != '.') ++ '.' :: frac = l := by
        conv_rhs => rw [← List.takeWhile_append_dropWhile (fun c => c != '.') l]
        rw [hdw]
      have hipd : ∀ c ∈ l.takeWhile (fun c => c != '.'), c.isDigit = true := by
        intro c hc
        have hne : ¬(c = '.') := by simpa using List.mem_takeWhile_imp hc
        have hcl : c ∈ l := by rw [← hsplit]; exact List.mem_append_left _ hc
        have hk := List.all_eq_true.mp hall c hcl
        simp only [keepChar, Bool.or_eq_true] at hk
        rcases hk with h | h
        · exact h
        · exact absurd (by simpa using h) hne
      have hipc : (l.takeWhile (fun c => c != '.')).count '.' = 0 :=
        List.count_eq_zero.mpr (fun hm => by
          have := List.mem_takeWhile_imp hm; simp at this)
      have hcnt : l.count '.' = (l.takeWhile (fun c => c != '.')).count '.' +
          (frac.count '.' + 1) := by
        conv_lhs => rw [← hsplit]
        rw [List.count_append, List.count_cons_self]
      rcases hfc : frac.contains '.' with _ | _
      · -- exactly one dot
        have hfracnd : ¬('.' ∈ frac) := by
          intro hm
          have : frac.elem '.' = true := List.elem_eq_true_of_mem hm
          have hco : frac.contains '.' = true := this
          rw [hfc] at hco; cases hco
        have hfracd : ∀ c ∈ frac, c.isDigit = true := by
          intro c hc
          have hcl : c ∈ l := by
            rw [← hsplit]; exact List.mem_append_right _ (List.mem_cons_of_mem _ hc)
          have hk := List.all_eq_true.mp hall c hcl
          simp only [keepChar, Bool.or_eq_true] at hk
          rcases hk with h | h
          · exact h
          · have hce : c = '.' := by simpa using h
            exact absurd (hce ▸ hc) hfracnd
        have hcount : l.count '.' = 1 := by
          rw [hcnt, hipc, List.count_eq_zero.mpr hfracnd]
        by_cases hboth : l.takeWhile (fun c => c != '.') = [] ∧ frac = []
        · obtain ⟨h1, h2⟩ := hboth
          have hl : l = ['.'] := by rw [← hsplit, h1, h2]; rfl
          have hld : l.any Char.isDigit = false := by
            rw [hl]; rfl
          rw [h1, h2, hld]
          simp
        · have hne : ((l.takeWhile (fun c => c != '.')).isEmpty && frac.isEmpty) = false := by
            rcases not_and_or.mp hboth with h | h
            · rcases htw2 : l.takeWhile (fun c => c != '.') with _ | ⟨a, as⟩
              · exact absurd htw2 h
              · simp
            · rcases hf2 : frac with _ | ⟨a, as⟩
              · exact absurd hf2 h
              · simp [hf2]
          have hany : l.any Char.isDigit = true := by
            rcases not_and_or.mp hboth with h | h
            · rcases List.exists_mem_of_ne_nil _ h with ⟨c, hc⟩
              exact List.any_eq_true.mpr ⟨c, by rw [← hsplit]; exact List.mem_append_left _ hc,
                hipd c hc⟩
            · rcases List.exists_mem_of_ne_nil _ h with ⟨c, hc⟩
              refine List.any_eq_true.mpr ⟨c, ?_, hfracd c hc⟩
              rw [← hsplit]; exact List.mem_append_right _ (List.mem_cons_of_mem _ hc)
          have hdotnd : Char.isDigit '.' = false := by decide
          have hfil : l.filter Char.isDigit = l.takeWhile (fun c => c != '.') ++ frac := by
            conv_lhs => rw [← hsplit]
            rw [List.filter_append, List.filter_eq_self.mpr hipd,
              List.filter_cons_of_neg (by simp [hdotnd]), List.filter_eq_self.mpr hfracd]
          have hcond : (l.any Char.isDigit && decide (l.count '.' ≤ 1)) = true := by
            rw [hany, hcount]
            norm_num
          have hc2 : ¬(((l.takeWhile (fun c => c != '.')).isEmpty && frac.isEmpty) = true) := by
            rw [hne]; exact Bool.false_ne_true
          rw [if_neg Bool.false_ne_true, if_neg hc2, if_pos hcond, hfil]
          simp only [List.drop_succ_cons, List.drop_zero]
          congr 1
          rw [digitsVal_append]
          have h10 : ((10 : ℚ) ^ frac.length) ≠ 0 := by positivity
          push_cast
          field_simp
      · -- at least two dots: both sides reject
        have hmem : '.' ∈ frac := by
          have : frac.elem '.' = true := hfc
          simpa using this
        have hfr : frac.count '.' ≠ 0 := fun h0 => (List.count_eq_zero.mp h0) hmem
        have hcount2 : ¬(l.count '.' ≤ 1) := by
          rw [hcnt]
          omega
        simp [hcount2]
  · rw [if_neg hall]
    have : l.all (fun c => c.isDigit || c == '.') = false := by
      rcases hb : l.all keepChar with _ | _
      · exact hb
      · exact absurd hb hall
    simp [this]

lemma toNumericF_nonneg {l : List Char} {q : ℚ} (h : toNumericF l = some q) : 0 ≤ q := by
  unfold toNumericF at h
  dsimp only at h
  split at h
  · split at h
    · split at h
      · cases h
      · cases h; positivity
    · split at h
      · cases h
      · split at h
        · cases h
        · cases h; positivity
  · cases h

lemma moneyCoerce_nonneg (l : List Char) : 0 ≤ moneyCoerce l := by
  unfold moneyCoerce
  dsimp only
  split
  · exact le_refl 0
  · rcases hv : toNumericF (l.filter keepChar) with _ | q
    · simp [hv]
    · simp only [hv, Option.getD_some]
      exact toNumericF_nonneg hv

lemma moneyCoerce_le (l : List Char) : moneyCoerce l ≤ (10 : ℚ) ^ 12 := by
  unfold moneyCoerce
  dsimp only
  split
  case isTrue h => positivity
  case isFalse h => exact le_of_not_lt h

/-- Evaluation rule for the embedded parser on an input with a dot. -/
lemma toNumericF_frac_eval (l ip frac : List Char)
    (h1 : l.all keepChar = true)
    (h2 : l.takeWhile (fun c => c != '.') = ip)
    (h3 : l.dropWhile (fun c => c != '.') = '.' :: frac)
    (h4 : frac.contains '.' = false)
    (h5 : (ip.isEmpty && frac.isEmpty) = false) :
    toNumericF l = some ((digitsVal ip : ℚ) + (digitsVal frac : ℚ) / (10 : ℚ) ^ frac.length) := by
  unfold toNumericF
  rw [if_pos h1, h3]
  dsimp only
  rw [h2, h4, h5]
  simp

/-- Evaluation rule for the embedded parser on a dot-free input. -/
lemma toNumericF_int_eval (l : List Char)
    (h1 : l.all keepChar = true) (h2 : l.dropWhile (fun c => c != '.') = [])
    (h3 : l.isEmpty = false) :
    toNumericF l = some ((digitsVal l : ℚ)) := by
  have htw : l.takeWhile (fun c => c != '.') = l :=
    List.takeWhile_eq_self_iff.mpr (List.dropWhile_eq_nil_iff.mp h2)
  unfold toNumericF
  rw [if_pos h1, h2]
  dsimp only
  rw [htw, h3]
  simp

lemma moneyCoerce_dollar_example : moneyCoerce "$1,200.50".data = 1200.5 := by
  have hf : "$1,200.50".data.filter keepChar = "1200.50".data := by decide
  have hp : toNumericF "1200.50".data =
      some ((digitsVal "1200".data : ℚ) + (digitsVal "50".data : ℚ) / (10 : ℚ) ^ 2) :=
    toNumericF_frac_eval _ _ _ (by decide) (by decide) (by decide) (by decide) (by decide)
  have hv1 : digitsVal "1200".data = 1200 := by decide
  have hv2 : digitsVal "50".data = 50 := by decide
  unfold moneyCoerce
  dsimp only
  rw [hf, hp, hv1, hv2]
  rw [Option.getD_some]
  rw [if_neg (by norm_num)]
  norm_num

lemma moneyCoerce_phone_example : moneyCoerce "5551234567890".data = 0 := by
  have hf : "5551234567890".data.filter keepChar = "5551234567890".data := by decide
  have hp : toNumericF "5551234567890".data = some ((digitsVal "5551234567890".data : ℚ)) :=
    toNumericF_int_eval _ (by decide) (by decide) (by decide)
  have hv : digitsVal "5551234567890".data = 5551234567890 := by decide
  unfold moneyCoerce
  dsimp only
  rw [hf, hp, hv, Option.getD_some]
  rw [if_pos (by norm_num)]

lemma moneyCoerce_empty : moneyCoerce [] = 0 := by
  have hp : toNumericF (List.filter keepChar []) = none := rfl
  unfold moneyCoerce
  dsimp only
  rw [hp]
  rw [if_neg (by norm_num)]
  rfl

lemma moneyCoerce_minus100 : moneyCoerce "-100".data = 100 := by
  have hf : "-100".data.filter keepChar = "100".data := by decide
  have hp : toNumericF "100".data = some ((digitsVal "100".data : ℚ)) :=
    toNumericF_int_eval _ (by decide) (by decide) (by decide)
  have hv : digitsVal "100".data = 100 := by decide
  unfold moneyCoerce
  dsimp only
  rw [hf, hp, hv, Option.getD_some]
  rw [if_neg (by norm_num)]
  norm_num

lemma dropWhile_idem (p : Char → Bool) (l : List Char) :
    (l.dropWhile p).dropWhile p = l.dropWhile p := by
  rcases hdw : l.dropWhile p with _ | ⟨c, cs⟩
  · rfl
  · rw [List.dropWhile_cons, if_neg]
    rw [dropWhile_head_false hdw]
    exact Bool.false_ne_true

lemma rstripL_append_dropped (y : List Char) :
    rstripL y ++ (y.reverse.takeWhile wsChar).reverse = y := by
  unfold rstripL
  rw [← List.reverse_append, List.takeWhile_append_dropWhile]
  exact List.reverse_reverse y

lemma mem_rstripL {c : Char} {l : List Char} (h : c ∈ rstripL l) : c ∈ l := by
  unfold rstripL at h
  rw [List.mem_reverse] at h
  have := (List.dropWhile_sublist wsChar).mem h
  rwa [List.mem_reverse] at this

lemma mem_stripL {c : Char} {l : List Char} (h : c ∈ stripL l) : c ∈ l :=
  (List.dropWhile_sublist wsChar).mem (mem_rstripL h)

lemma rstripL_idem (l : List Char) : rstripL (rstripL l) = rstripL l := by
  unfold rstripL
  rw [List.reverse_reverse, dropWhile_idem]

lemma lstripL_rstripL_lstripL (x : List Char) :
    lstripL (rstripL (lstripL x)) = rstripL (lstripL x) := by
  rcases hr : rstripL (lstripL x) with _ | ⟨c, cs⟩
  · rfl
  · have hy : lstripL x = c :: (cs ++ (((lstripL x).reverse.takeWhile wsChar)).reverse) := by
      conv_lhs => rw [← rstripL_append_dropped (lstripL x)]
      rw [hr]
      rfl
    have hcw : wsChar c = false := dropWhile_head_false hy
    unfold lstripL
    rw [List.dropWhile_cons, if_neg]
    rw [hcw]
    exact Bool.false_ne_true

lemma stripL_idem (l : List Char) : stripL (stripL l) = stripL l := by
  show rstripL (lstripL (rstripL (lstripL l))) = rstripL (lstripL l)
  rw [lstripL_rstripL_lstripL, rstripL_idem]

lemma map_id_of_mem {f : Char → Char} {t : List Char} (h : ∀ c ∈ t, f c = c) :
    t.map f = t := by
  rw [List.map_congr_left h]
  exact List.map_id' t

lemma sanitizeChars_mem {l : List Char} {c : Char} (h : c ∈ sanitizeChars l) :
    (wordChar c || wsChar c) = true := by
  unfold sanitizeChars at h
  have hm := mem_stripL h
  rcases List.mem_map.mp hm with ⟨c0, _, hc0⟩
  by_cases hg : (wordChar c0 || wsChar c0) = true
  · rw [if_pos hg] at hc0
    subst hc0
    exact hg
  · rw [if_neg hg] at hc0
    rw [← hc0]
    rfl

lemma sanitizeChars_idem (l : List Char) :
    sanitizeChars (sanitizeChars l) = sanitizeChars l := by
  have hmap : (sanitizeChars l).map
      (fun c => if wordChar c || wsChar c then c else ' ') = sanitizeChars l :=
    map_id_of_mem (fun c hc => if_pos (sanitizeChars_mem hc))
  show stripL ((sanitizeChars l).map _) = sanitizeChars l
  rw [hmap]
  exact stripL_idem _

lemma lstarts_iff (pat l : List Char) : lstarts pat l = true ↔ ∃ t, l = pat ++ t := by
  induction pat generalizing l with
  | nil => simp [lstarts]
  | cons p ps ih =>
    cases l with
    | nil => simp [lstarts]
    | cons c cs =>
      rw [lstarts, Bool.and_eq_true, beq_iff_eq, ih]
      constructor
      · rintro ⟨rfl, t, rfl⟩
        exact ⟨t, rfl⟩
      · rintro ⟨t, ht⟩
        injection ht with h1 h2
        exact ⟨h1.symm, t, h2⟩

lemma lsub_iff (pat l : List Char) :
    lsub pat l = true ↔ ∃ p s, l = p ++ (pat ++ s) := by
  induction l with
  | nil =>
    cases pat with
    | nil => simp [lsub, lstarts]
    | cons x xs => simp [lsub, lstarts]
  | cons c cs ih =>
    rw [lsub, Bool.or_eq_true, ih, lstarts_iff]
    constructor
    · rintro (⟨t, ht⟩ | ⟨p, s, hps⟩)
      · exact ⟨[], t, by simpa using ht⟩
      · exact ⟨c :: p, s, by simp [hps]⟩
    · rintro ⟨p, s, hps⟩
      cases p with
      | nil => exact Or.inl ⟨s, by simpa using hps⟩
      | cons q qs =>
        injection hps with h1 h2
        exact Or.inr ⟨qs, s, h2⟩

lemma moneyCoerce_strip_head {c : Char} (hc : keepChar c = false) (s : List Char) :
    moneyCoerce (c :: s) = moneyCoerce s := by
  unfold moneyCoerce
  dsimp only
  rw [List.filter_cons_of_neg (by rw [hc]; exact Bool.false_ne_true)]

/-- Column descriptor of the upstream board: lines 47 and 67 of app.py. -/
structure ColumnDesc where
  id : String
  title : String
deriving DecidableEq

/-- One column value of a raw item: line 51 of app.py. -/
structure ColVal where
  id : String
  text : String
deriving DecidableEq

/-- One raw upstream item: name plus column values (lines 49-52 of app.py). -/
structure Item where
  name : String
  column_values : List ColVal
deriving DecidableEq

/-- One board of the upstream response (columns and items_page.items). -/
structure Board where
  columns : List ColumnDesc
  items : List Item
deriving DecidableEq

/-- Outcome of the HTTP fetch and JSON decode in fetch_and_clean:
either some exception was raised while fetching or parsing (network failure,
malformed payload, timeout, missing keys — everything the try of line 58
catches), or a decoded response with an optional errors list (the
payload's 'errors' key, lines 62-63, with the message of each error) and a
boards list. -/
inductive FetchInput where
  | exn (msg : String)
  | ok (errors : Option (List String)) (boards : List Board)

/-- A cell of the resulting table: text, or a number once a money column
has been coerced on lines 92-94. -/
inductive Cell where
  | str (s : String)
  | num (q : ℚ)
deriving DecidableEq

/-- Python dict insertion: an existing key keeps its position and gets the
new value; a new key is appended.  This is the semantics of d[k] = v used
to build col_map, item_vals and row_data. -/
def dinsert {α : Type} : List (String × α) → String → α → List (String × α)
  | [], k, v => [(k, v)]
  | p :: ps, k, v => if p.1 = k then (k, v) :: ps else p :: dinsert ps k v

/-- Python dict .get(k, dflt). -/
def lookupD {α : Type} (d : List (String × α)) (k : String) (dflt : α) : α :=
  match d.find? (fun p => p.1 == k) with
  | some p => p.2
  | none => dflt

/-- col_map of line 67: id → title for every column whose lower-cased title
is not "name", built in order. -/
def colMapOf (cols : List ColumnDesc) : List (String × String) :=
  (cols.filter (fun c => lowerStr c.title != "name")).foldl
    (fun d c => dinsert d c.id c.title) []

/-- item_vals of line 72: id → text over an item's column values. -/
def itemDict (vals : List ColVal) : List (String × String) :=
  vals.foldl (fun d v => dinsert d v.id v.text) []

/-- row_data of lines 71-74: "Item Name" first, then one entry per col_map
column, defaulting to the empty string when the item has no value for it. -/
def rowOf (colMap : List (String × String)) (it : Item) : List (String × Cell) :=
  colMap.foldl
    (fun r p => dinsert r p.2 (Cell.str (lookupD (itemDict it.column_values) p.1 "")))
    [("Item Name", Cell.str it.name)]

/-- The canonical table: pandas DataFrame with its column labels and its
rows (each row an ordered key→cell mapping; all rows built by rowOf share
one key list). -/
structure DataFrame where
  columns : List String
  rows : List (List (String × Cell))
deriving DecidableEq

/-- pd.DataFrame() — the empty table returned on every failure path. -/
def emptyDF : DataFrame := ⟨[], []⟩

/-- Union of row keys in order of first appearance: the column index that
pd.DataFrame(parsed_rows) derives from a list of dicts.  In particular it
is empty when there are no rows. -/
def addKeys (acc : List String) (r : List (String × Cell)) : List String :=
  r.foldl (fun a p => if a.contains p.1 then a else a ++ [p.1]) acc

def keyUnion (rows : List (List (String × Cell))) : List String :=
  rows.foldl addKeys []

/-- Lines 69-77: one row per raw item, then the DataFrame over them. -/
def flattenBoard (b : Board) : DataFrame :=
  let rows := b.items.map (rowOf (colMapOf b.columns))
  ⟨keyUnion rows, rows⟩

/-- Per-cell action of lines 92-93 on a money column: the textual cell is
replaced by its coerced numeric value. -/
def cellCoerce : Cell → Cell
  | Cell.str s => Cell.num (moneyCoerce s.data)
  | Cell.num q => Cell.num q

def coerceColumn (col : String) (rows : List (List (String × Cell))) :
    List (List (String × Cell)) :=
  rows.map (fun r => r.map (fun p => if p.1 = col then (p.1, cellCoerce p.2) else p))

/-- Lines 80-94: sanitize every column label, then walk the columns and
coerce each money-classified column. -/
def cleanDF (df : DataFrame) : DataFrame :=
  let cols := df.columns.map sanitizeTitle
  let rows := df.rows.map (fun r => r.map (fun p => (sanitizeTitle p.1, p.2)))
  ⟨cols, cols.foldl (fun rs c => if isMoneyTitle c then coerceColumn c rs else rs) rows⟩

/-- fetch_and_clean (lines 36-99) as a function of the fetch outcome.
The second component is the error message surfaced through st.error, if
any.  An errors key whose list is empty makes data['errors'][0] raise an
IndexError, caught by the same except as every other exception. -/
def fetchAndClean : FetchInput → DataFrame × Option String
  | FetchInput.exn m => (emptyDF, some ("Fetch Error: " ++ m))
  | FetchInput.ok (some []) _ => (emptyDF, some "Fetch Error: list index out of range")
  | FetchInput.ok (some (e :: _)) _ => (emptyDF, some ("Monday API Error: " ++ e))
  | FetchInput.ok none [] => (emptyDF, some "Fetch Error: list index out of range")
  | FetchInput.ok none (b :: _) => (cleanDF (flattenBoard b), none)

/-- The literal pattern of the first regex alternative on line 126. -/
def pyTag : List Char := "```python".data

/-- The literal pattern of the second regex alternative on line 126. -/
def fen : List Char := "```".data

/-- Flag telling whether the position after a consumed whitespace run is a
MULTILINE line start (the last consumed character was a newline). -/
def flagAfterWs (ws : List Char) : Bool :=
  match ws.getLast? with
  | some ch => ch == '\n'
  | none => false

/-- The $ anchor of MULTILINE mode: end of input or just before a newline. -/
def atLineEnd : List Char → Bool
  | [] => true
  | ch :: _ => ch == '\n'

/-- Scanner for re.sub(r'^```python\s*|```$', '', raw, flags=re.MULTILINE)
on line 126 of app.py.  The Boolean argument tells whether the current
position is a MULTILINE line start (^).  At each position the first
alternative is tried (line start, literal lower-case tag, then a greedy
whitespace run), then the second (three backticks ending a line; the $ is
zero-width, so scanning resumes at the newline with the line-start flag
off, matching the regex engine, which continues from the match end in the
original string).  On no match one character is emitted.  Fuel is the
length of the remaining input, so the recursion is structural. -/
def subFAux : ℕ → Bool → List Char → List Char
  | 0, _, l => l
  | _ + 1, _, [] => []
  | n + 1, a, c :: cs =>
    if a && lstarts pyTag (c :: cs) then
      subFAux n (flagAfterWs (((c :: cs).drop 9).takeWhile wsChar))
        (((c :: cs).drop 9).dropWhile wsChar)
    else if lstarts fen (c :: cs) && atLineEnd (cs.drop 2) then
      subFAux n false (cs.drop 2)
    else
      c :: subFAux n (c == '\n') cs

/-- clean_code of line 126: strip the completion, apply the substitution,
strip again. -/
def cleanCodeChars (content : List Char) : List Char :=
  stripL (subFAux (stripL content).length true (stripL content))

def genToCode (content : String) : String := ⟨cleanCodeChars content.data⟩

/-- Outcome of one language-model call: the completion text, or an
exception raised during the request. -/
inductive CallResult where
  | raises (msg : String)
  | returns (text : String)

/-- Outcome of exec(clean_code, {}, local_vars) on line 132: the final
local_vars binding (values rendered as the text that would be interpolated
into the summary prompt), or an exception raised by the snippet. -/
inductive ExecResult where
  | raises (msg : String)
  | binds (vars : List (String × String))

/-- The error message produced on line 146. -/
def agentErrorTag : String := "⚠️ Agent Logic Error: "

def lookupOpt (d : List (String × String)) (k : String) : Option String :=
  match d.find? (fun p => p.1 == k) with
  | some p => some p.2
  | none => none

/-- run_bi_agent (lines 102-146) as a function of its three effectful
boundaries: the code-generation call, the sandboxed execution (a function
of the cleaned snippet), and the narration call (a function of the raw
result value interpolated into the summary prompt).  Every exception falls
to the single except of line 145. -/
def runBiAgent (gen : CallResult) (ex : String → ExecResult)
    (narr : String → CallResult) : String :=
  match gen with
  | CallResult.raises m => agentErrorTag ++ m
  | CallResult.returns content =>
    match ex (genToCode content) with
    | ExecResult.raises m => agentErrorTag ++ m
    | ExecResult.binds vars =>
      match narr ((lookupOpt vars "result").getD "No result returned") with
      | CallResult.raises m => agentErrorTag ++ m
      | CallResult.returns s => s

lemma subFAux_nil (n : ℕ) (a : Bool) : subFAux n a [] = [] := by
  cases n <;> rfl

lemma subFAux_fuel (n m : ℕ) (a : Bool) (l : List Char) (hn : l.length ≤ n)
    (hm : l.length ≤ m) : subFAux n a l = subFAux m a l := by
  induction n generalizing m a l with
  | zero =>
    have hl : l = [] := List.length_eq_zero.mp (Nat.le_zero.mp hn)
    subst hl
    rw [subFAux_nil, subFAux_nil]
  | succ n ih =>
    cases l with
    | nil => rw [subFAux_nil, subFAux_nil]
    | cons c cs =>
      cases m with
      | zero => simp at hm
      | succ m =>
        have hn' : cs.length + 1 ≤ n + 1 := by simpa using hn
        have hm' : cs.length + 1 ≤ m + 1 := by simpa using hm
        simp only [subFAux]
        split_ifs with h1 h2
        · apply ih
          · have h9 : ((c :: cs).drop 9).length = cs.length + 1 - 9 := by
              simp [List.length_drop]
            have := (List.dropWhile_sublist wsChar (l := (c :: cs).drop 9)).length_le
            omega
          · have h9 : ((c :: cs).drop 9).length = cs.length + 1 - 9 := by
              simp [List.length_drop]
            have := (List.dropWhile_sublist wsChar (l := (c :: cs).drop 9)).length_le
            omega
        · apply ih
          · have h2' : (cs.drop 2).length = cs.length - 2 := by simp [List.length_drop]
            omega
          · have h2' : (cs.drop 2).length = cs.length - 2 := by simp [List.length_drop]
            omega
        · exact congrArg (c :: ·) (ih m (c == '\n') cs (by omega) (by omega))

/-- Line-start flag at the position after passing over s, starting from a. -/
def flagAfter (a : Bool) : List Char → Bool
  | [] => a
  | c :: cs => flagAfter (c == '\n') cs

lemma flagAfter_cons (a : Bool) (c : Char) (cs : List Char) :
    flagAfter a (c :: cs) = flagAfter (c == '\n') cs := rfl

lemma lstarts_append_self (p t : List Char) : lstarts p (p ++ t) = true := by
  induction p with
  | nil => rfl
  | cons q qs ih =>
    rw [List.cons_append, lstarts]
    simp [ih]

lemma lstarts_head_ne {pat : List Char} {p c : Char} {cs : List Char}
    (hp : pat.head? = some p) (hne : ¬(c = p)) : lstarts pat (c :: cs) = false := by
  cases pat with
  | nil => cases hp
  | cons q qs =>
    injection hp with hq
    rw [lstarts]
    have hb : (q == c) = false := by
      rw [beq_eq_false_iff_ne]
      exact fun h => hne (h ▸ hq)
    rw [hb, Bool.false_and]

lemma subFAux_pass : ∀ (s : List Char), (∀ c ∈ s, ¬(c = Char.ofNat 96)) →
    ∀ (t : List Char) (a : Bool) (n : ℕ), s.length + t.length ≤ n →
    subFAux n a (s ++ t) = s ++ subFAux (n - s.length) (flagAfter a s) t := by
  intro s
  induction s with
  | nil =>
    intro _ t a n _
    simp [flagAfter]
  | cons c cs ih =>
    intro hs t a n hn
    cases n with
    | zero => simp at hn
    | succ n =>
      have hc : ¬(c = Char.ofNat 96) := hs c (List.mem_cons_self c cs)
      have h1 : lstarts pyTag (c :: (cs ++ t)) = false :=
        lstarts_head_ne (by decide) hc
      have h2 : lstarts fen (c :: (cs ++ t)) = false :=
        lstarts_head_ne (by decide) hc
      rw [List.cons_append]
      simp only [subFAux, h1, h2, Bool.and_false, Bool.false_and, Bool.false_eq_true,
        if_false]
      rw [flagAfter_cons]
      have harith : n + 1 - (c :: cs).length = n - cs.length := by
        simp [List.length_cons]
      rw [harith]
      rw [ih (fun c' hc' => hs c' (List.mem_cons_of_mem _ hc')) t (c == '\n') n (by
        simp only [List.length_cons] at hn
        omega)]
      rfl

lemma subFAux_python_step (rest : List Char) (n : ℕ) (hn : 1 ≤ n) :
    subFAux n true ("```python\n".data ++ rest) =
      subFAux (n - 1) (flagAfterWs (('\n' :: rest).takeWhile wsChar))
        (('\n' :: rest).dropWhile wsChar) := by
  cases n with
  | zero => omega
  | succ n =>
    have heq : "```python\n".data ++ rest =
        Char.ofNat 96 :: ("``python\n".data ++ rest) := rfl
    have hassoc : Char.ofNat 96 :: ("``python\n".data ++ rest) =
        pyTag ++ ('\n' :: rest) := rfl
    rw [heq]
    simp only [subFAux]
    rw [hassoc, lstarts_append_self, Bool.and_true]
    rw [if_pos rfl]
    have hdrop : (pyTag ++ ('\n' :: rest)).drop 9 = '\n' :: rest :=
      List.drop_left' rfl
    rw [hdrop]
    rfl

lemma takeWhile_append_all {p : Char → Bool} {u : List Char} (t : List Char)
    (h : ∀ c ∈ u, p c = true) :
    (u ++ t).takeWhile p = u ++ t.takeWhile p := by
  induction u with
  | nil => rfl
  | cons c cs ih =>
    rw [List.cons_append, List.takeWhile_cons_of_pos (h c (List.mem_cons_self c cs)),
      ih (fun c' hc' => h c' (List.mem_cons_of_mem _ hc')), List.cons_append]

lemma dropWhile_append_all {p : Char → Bool} {u : List Char} (t : List Char)
    (h : ∀ c ∈ u, p c = true) :
    (u ++ t).dropWhile p = t.dropWhile p := by
  induction u with
  | nil => rfl
  | cons c cs ih =>
    rw [List.cons_append, List.dropWhile_cons_of_pos (h c (List.mem_cons_self c cs)),
      ih (fun c' hc' => h c' (List.mem_cons_of_mem _ hc'))]

lemma takeWhile_append_stop {p : Char → Bool} {u : List Char} {c : Char} {cs : List Char}
    (t : List Char) (h : u.dropWhile p = c :: cs) :
    (u ++ t).takeWhile p = u.takeWhile p := by
  induction u with
  | nil => cases h
  | cons x xs ih =>
    by_cases hx : p x = true
    · rw [List.dropWhile_cons_of_pos hx] at h
      rw [List.cons_append, List.takeWhile_cons_of_pos hx,
        List.takeWhile_cons_of_pos hx, ih h]
    · rw [List.cons_append, List.takeWhile_cons_of_neg hx, List.takeWhile_cons_of_neg hx]

lemma dropWhile_append_stop {p : Char → Bool} {u : List Char} {c : Char} {cs : List Char}
    (t : List Char) (h : u.dropWhile p = c :: cs) :
    (u ++ t).dropWhile p = u.dropWhile p ++ t := by
  induction u with
  | nil => cases h
  | cons x xs ih =>
    by_cases hx : p x = true
    · rw [List.dropWhile_cons_of_pos hx] at h
      rw [List.cons_append, List.dropWhile_cons_of_pos hx, ih h,
        List.dropWhile_cons_of_pos hx]
    · rw [List.cons_append, List.dropWhile_cons_of_neg hx, List.dropWhile_cons_of_neg hx,
        List.cons_append]

lemma lstripL_eq_self {l : List Char} (h : ∀ c, l.head? = some c → wsChar c = false) :
    lstripL l = l := by
  cases l with
  | nil => rfl
  | cons c cs =>
    unfold lstripL
    rw [List.dropWhile_cons_of_neg]
    rw [h c rfl]
    exact Bool.false_ne_true

lemma rstripL_eq_self {l : List Char} (h : ∀ c, l.getLast? = some c → wsChar c = false) :
    rstripL l = l := by
  unfold rstripL
  have hh : ∀ c, l.reverse.head? = some c → wsChar c = false := by
    intro c hc
    rw [List.head?_reverse] at hc
    exact h c hc
  have := lstripL_eq_self hh
  unfold lstripL at this
  rw [this, List.reverse_reverse]

lemma stripL_eq_self {l : List Char} (h1 : ∀ c, l.head? = some c → wsChar c = false)
    (h2 : ∀ c, l.getLast? = some c → wsChar c = false) : stripL l = l := by
  unfold stripL
  rw [show lstripL l = l from lstripL_eq_self h1]
  exact rstripL_eq_self h2

lemma stripL_nil : stripL ([] : List Char) = [] := rfl

lemma subFAux_tail_eval : ∀ a : Bool, subFAux 4 a ('\n' :: fen) = ['\n'] := by
  intro a
  cases a <;> decide

/-- Full evaluation of the fence scanner on a lower-case-fenced completion:
a snippet with no backtick character, wrapped by the model in the exact
markers the regex targets, comes out stripped. -/
lemma cleanCodeChars_wrapped (s : List Char)
    (hs : ∀ c ∈ s, ¬(c = Char.ofNat 96)) :
    cleanCodeChars ("```python\n".data ++ s ++ "\n```".data) = stripL s := by
  have h10 : ("```python\n".data).length = 10 := rfl
  have h4 : ("\n```".data).length = 4 := rfl
  have hnl : "\n```".data = '\n' :: fen := rfl
  have hhead : ∀ c, (("```python\n".data ++ s ++ "\n```".data)).head? = some c →
      wsChar c = false := by
    intro c hc
    have hh : (("```python\n".data ++ s ++ "\n```".data)).head? =
        some (Char.ofNat 96) := rfl
    rw [hh] at hc
    injection hc with h
    rw [← h]
    decide
  have hlast : ∀ c, (("```python\n".data ++ s ++ "\n```".data)).getLast? = some c →
      wsChar c = false := by
    intro c hc
    rw [List.getLast?_append] at hc
    have hh : ("\n```".data).getLast? = some (Char.ofNat 96) := by decide
    rw [hh] at hc
    have ho : (some (Char.ofNat 96)).or (("```python\n".data ++ s).getLast?) =
        some (Char.ofNat 96) := rfl
    rw [ho] at hc
    injection hc with h
    rw [← h]
    decide
  have hstrip : stripL ("```python\n".data ++ s ++ "\n```".data) =
      "```python\n".data ++ s ++ "\n```".data := stripL_eq_self hhead hlast
  unfold cleanCodeChars
  rw [hstrip]
  rw [List.append_assoc]
  have hNlen : ("```python\n".data ++ (s ++ "\n```".data)).length = s.length + 14 := by
    simp only [List.length_append, h10, h4]
    omega
  rw [hNlen]
  rw [subFAux_python_step (s ++ "\n```".data) (s.length + 14) (by omega)]
  rcases hsd : s.dropWhile wsChar with _ | ⟨c0, sd'⟩
  · -- the snippet is all whitespace
    have hws : ∀ c ∈ s, wsChar c = true := List.dropWhile_eq_nil_iff.mp hsd
    have htw : ('\n' :: (s ++ "\n```".data)).takeWhile wsChar = '\n' :: (s ++ ['\n']) := by
      rw [List.takeWhile_cons_of_pos (by decide), hnl, takeWhile_append_all _ hws]
      rw [show ('\n' :: fen).takeWhile wsChar = ['\n'] from by decide]
    have hdw : ('\n' :: (s ++ "\n```".data)).dropWhile wsChar = fen := by
      rw [List.dropWhile_cons_of_pos (by decide), hnl, dropWhile_append_all _ hws]
      decide
    rw [htw, hdw]
    have hflag : flagAfterWs ('\n' :: (s ++ ['\n'])) = true := by
      unfold flagAfterWs
      have hc : '\n' :: (s ++ ['\n']) = ('\n' :: s) ++ ['\n'] := by
        rw [List.cons_append]
      rw [hc, List.getLast?_concat]
      rfl
    rw [hflag]
    rw [subFAux_fuel _ 3 true fen (by
      rw [show fen.length = 3 from rfl]
      omega) (by decide)]
    rw [show subFAux 3 true fen = [] from by decide]
    have hrhs : stripL s = [] := by
      unfold stripL lstripL
      rw [hsd]
      rfl
    rw [hrhs, stripL_nil]
  · -- the snippet has a first non-whitespace character c0
    have hc0 : wsChar c0 = false := dropWhile_head_false hsd
    have htw : ('\n' :: (s ++ "\n```".data)).takeWhile wsChar =
        '\n' :: s.takeWhile wsChar := by
      rw [List.takeWhile_cons_of_pos (by decide), takeWhile_append_stop _ hsd]
    have hdw : ('\n' :: (s ++ "\n```".data)).dropWhile wsChar =
        (c0 :: sd') ++ ('\n' :: fen) := by
      rw [List.dropWhile_cons_of_pos (by decide), hnl, dropWhile_append_stop _ hsd, hsd]
    rw [htw, hdw]
    have hsdlen : (c0 :: sd').length ≤ s.length := by
      rw [← hsd]
      exact (List.dropWhile_sublist wsChar).length_le
    have hnb : ∀ c ∈ (c0 :: sd'), ¬(c = Char.ofNat 96) := by
      intro c hc
      apply hs
      have hmem : c ∈ s.dropWhile wsChar := by rw [hsd]; exact hc
      exact (List.dropWhile_sublist wsChar).mem hmem
    rw [subFAux_pass (c0 :: sd') hnb ('\n' :: fen) _ _ (by
      rw [show ('\n' :: fen).length = 4 from rfl]
      omega)]
    rw [subFAux_fuel _ 4 _ ('\n' :: fen) (by
      rw [show ('\n' :: fen).length = 4 from rfl]
      omega) (by decide)]
    rw [subFAux_tail_eval]
    have hlstrip : lstripL ((c0 :: sd') ++ ['\n']) = (c0 :: sd') ++ ['\n'] :=
      lstripL_eq_self (by
        intro c hc
        have hcc : some c0 = some c := hc
        injection hcc with h
        rw [← h]
        exact hc0)
    have hlhs : stripL ((c0 :: sd') ++ ['\n']) = rstripL (c0 :: sd') := by
      unfold stripL
      rw [hlstrip]
      unfold rstripL
      rw [List.reverse_append]
      rw [show (['\n'] : List Char).reverse = ['\n'] from rfl, List.singleton_append]
      rw [List.dropWhile_cons_of_pos (by decide)]
    have hrhs : stripL s = rstripL (c0 :: sd') := by
      unfold stripL lstripL
      rw [hsd]
    rw [hlhs, hrhs]

lemma dinsert_not_mem {α : Type} {d : List (String × α)} {k : String} (v : α)
    (h : ¬(k ∈ d.map Prod.fst)) : dinsert d k v = d ++ [(k, v)] := by
  induction d with
  | nil => rfl
  | cons p ps ih =>
    have hp : ¬(p.1 = k) := fun he => h (List.mem_map.mpr ⟨p, List.mem_cons_self p ps, he⟩)
    have htail : ¬(k ∈ ps.map Prod.fst) := fun hm => h (by
      rw [List.map_cons]
      exact List.mem_cons_of_mem _ hm)
    rw [dinsert, if_neg hp, ih htail, List.cons_append]

lemma foldl_dinsert_gen {β α : Type} (key : β → String) (val : β → α) :
    ∀ (l : List β) (acc : List (String × α)),
    (l.map key).Nodup → (∀ k ∈ l.map key, ¬(k ∈ acc.map Prod.fst)) →
    l.foldl (fun d x => dinsert d (key x) (val x)) acc =
      acc ++ l.map (fun x => (key x, val x)) := by
  intro l
  induction l with
  | nil =>
    intro acc _ _
    simp
  | cons x xs ih =>
    intro acc hnd hdisj
    rw [List.foldl_cons]
    have hx : ¬(key x ∈ acc.map Prod.fst) :=
      hdisj (key x) (List.mem_map.mpr ⟨x, List.mem_cons_self x xs, rfl⟩)
    rw [dinsert_not_mem _ hx]
    rw [List.map_cons] at hnd
    have hnd' := hnd.of_cons
    have hkx : ¬(key x ∈ xs.map key) := by
      intro hm
      exact (List.nodup_cons.mp hnd).1 hm
    rw [ih (acc ++ [(key x, val x)]) hnd' ?hd]
    case hd =>
      intro k hk hmem
      rw [List.map_append] at hmem
      rcases List.mem_append.mp hmem with h | h
      · exact hdisj k (by rw [List.map_cons]; exact List.mem_cons_of_mem _ hk) h
      · have hkk : k = key x := by simpa using h
        exact hkx (hkk ▸ hk)
    rw [List.append_assoc, List.singleton_append, List.map_cons]

lemma mem_keys_dinsert {α : Type} {d : List (String × α)} {k k' : String} {v : α}
    (h : k' ∈ (dinsert d k v).map Prod.fst) : k' ∈ d.map Prod.fst ∨ k' = k := by
  induction d with
  | nil =>
    simp [dinsert] at h
    exact Or.inr h
  | cons p ps ih =>
    rw [dinsert] at h
    by_cases hp : p.1 = k
    · rw [if_pos hp] at h
      rcases List.mem_map.mp h with ⟨q, hq, hfst⟩
      rcases List.mem_cons.mp hq with rfl | hq'
      · exact Or.inr hfst.symm
      · exact Or.inl (List.mem_map.mpr ⟨q, List.mem_cons_of_mem _ hq', hfst⟩)
    · rw [if_neg hp] at h
      rcases List.mem_map.mp h with ⟨q, hq, hfst⟩
      rcases List.mem_cons.mp hq with rfl | hq'
      · exact Or.inl (List.mem_map.mpr ⟨q, List.mem_cons_self _ _, hfst⟩)
      · rcases ih (List.mem_map.mpr ⟨q, hq', hfst⟩) with h' | h'
        · rcases List.mem_map.mp h' with ⟨q', hq'', hfst'⟩
          exact Or.inl (List.mem_map.mpr ⟨q', List.mem_cons_of_mem _ hq'', hfst'⟩)
        · exact Or.inr h'

lemma mem_keys_foldl_dinsert {β α : Type} (key : β → String) (val : β → α) :
    ∀ (l : List β) (acc : List (String × α)) (k : String),
    k ∈ (l.foldl (fun d x => dinsert d (key x) (val x)) acc).map Prod.fst →
    k ∈ acc.map Prod.fst ∨ k ∈ l.map key := by
  intro l
  induction l with
  | nil =>
    intro acc k h
    exact Or.inl h
  | cons x xs ih =>
    intro acc k h
    rw [List.foldl_cons] at h
    rcases ih (dinsert acc (key x) (val x)) k h with h' | h'
    · rcases mem_keys_dinsert h' with h'' | h''
      · exact Or.inl h''
      · exact Or.inr (by rw [List.map_cons]; exact h'' ▸ List.mem_cons_self _ _)
    · exact Or.inr (List.mem_cons_of_mem _ h')

lemma lookupD_not_mem {α : Type} {d : List (String × α)} {k : String} (dflt : α)
    (h : ¬(k ∈ d.map Prod.fst)) : lookupD d k dflt = dflt := by
  unfold lookupD
  rw [List.find?_eq_none.mpr]
  intro p hp
  simp only [beq_iff_eq]
  intro he
  exact h (List.mem_map.mpr ⟨p, hp, he⟩)

lemma lookupD_itemDict_default (vals : List ColVal) (k : String)
    (h : ∀ v ∈ vals, ¬(v.id = k)) : lookupD (itemDict vals) k "" = "" := by
  apply lookupD_not_mem
  intro hmem
  unfold itemDict at hmem
  rcases mem_keys_foldl_dinsert ColVal.id ColVal.text vals [] k hmem with h' | h'
  · simp at h'
  · rcases List.mem_map.mp h' with ⟨v, hv, hid⟩
    exact h v hv hid

/-- The non-name descriptors of a board: the filter of line 67. -/
def nonNameCols (cols : List ColumnDesc) : List ColumnDesc :=
  cols.filter (fun c => lowerStr c.title != "name")

lemma colMapOf_eq (cols : List ColumnDesc)
    (hids : ((nonNameCols cols).map ColumnDesc.id).Nodup) :
    colMapOf cols = (nonNameCols cols).map (fun c => (c.id, c.title)) := by
  have h := foldl_dinsert_gen ColumnDesc.id ColumnDesc.title (nonNameCols cols) [] hids
    (by intro k _ hmem; simp at hmem)
  rw [List.nil_append] at h
  exact h

lemma rowOf_eq (colMap : List (String × String)) (it : Item)
    (hnd : (colMap.map Prod.snd).Nodup)
    (hin : ¬("Item Name" ∈ colMap.map Prod.snd)) :
    rowOf colMap it = ("Item Name", Cell.str it.name) ::
      colMap.map (fun p => (p.2, Cell.str (lookupD (itemDict it.column_values) p.1 ""))) := by
  unfold rowOf
  rw [foldl_dinsert_gen Prod.snd
    (fun p => Cell.str (lookupD (itemDict it.column_values) p.1 "")) colMap
    [("Item Name", Cell.str it.name)] hnd
    (by
      intro k hk hmem
      simp only [List.map_cons, List.map_nil] at hmem
      rcases List.mem_singleton.mp hmem with rfl
      exact hin hk)]
  rw [List.singleton_append]

lemma addKeys_eq (r : List (String × Cell)) :
    ∀ (acc : List String), (r.map Prod.fst).Nodup →
    (∀ p ∈ r, ¬(p.1 ∈ acc)) →
    addKeys acc r = acc ++ r.map Prod.fst := by
  induction r with
  | nil =>
    intro acc _ _
    simp [addKeys]
  | cons p ps ih =>
    intro acc hnd hdisj
    unfold addKeys
    rw [List.foldl_cons]
    have hct : acc.contains p.1 = false := by
      rcases hc : acc.contains p.1 with _ | _
      · rfl
      · exact absurd (by simpa using hc) (hdisj p (List.mem_cons_self p ps))
    rw [hct]
    simp only [Bool.false_eq_true, if_false]
    have hnd' : (ps.map Prod.fst).Nodup := by
      rw [List.map_cons] at hnd
      exact hnd.of_cons
    have hp1 : ¬(p.1 ∈ ps.map Prod.fst) := by
      rw [List.map_cons] at hnd
      exact (List.nodup_cons.mp hnd).1
    have := ih (acc ++ [p.1]) hnd' (by
      intro q hq hmem
      rcases List.mem_append.mp hmem with h | h
      · exact hdisj q (List.mem_cons_of_mem _ hq) h
      · have hq1 : q.1 = p.1 := by simpa using h
        exact hp1 (hq1 ▸ List.mem_map.mpr ⟨q, hq, rfl⟩))
    unfold addKeys at this
    rw [this, List.append_assoc, List.singleton_append, List.map_cons]

lemma addKeys_all_mem (r : List (String × Cell)) :
    ∀ (acc : List String), (∀ p ∈ r, p.1 ∈ acc) → addKeys acc r = acc := by
  induction r with
  | nil =>
    intro acc _
    rfl
  | cons p ps ih =>
    intro acc hmem
    unfold addKeys
    rw [List.foldl_cons]
    have hct : acc.contains p.1 = true :=
      List.elem_eq_true_of_mem (hmem p (List.mem_cons_self p ps))
    rw [hct]
    simp only [if_true]
    exact ih acc (fun q hq => hmem q (List.mem_cons_of_mem _ hq))

lemma keyUnion_const (K : List String) (hnd : K.Nodup) :
    ∀ (rows : List (List (String × Cell))),
    (∀ r ∈ rows, r.map Prod.fst = K) →
    rows ≠ [] → keyUnion rows = K := by
  intro rows
  induction rows with
  | nil =>
    intro _ h
    exact absurd rfl h
  | cons r rs ih =>
    intro hk _
    unfold keyUnion
    rw [List.foldl_cons]
    have h0 : addKeys [] r = K := by
      have := addKeys_eq r [] (by rw [hk r (List.mem_cons_self r rs)]; exact hnd)
        (by intro p _ hm; simp at hm)
      rw [this, List.nil_append, hk r (List.mem_cons_self r rs)]
    rw [h0]
    -- every further row only re-adds the same keys
    have : ∀ (rs' : List (List (String × Cell))), (∀ r' ∈ rs', r'.map Prod.fst = K) →
        rs'.foldl addKeys K = K := by
      intro rs'
      induction rs' with
      | nil => intro _; rfl
      | cons r' rs'' ih' =>
        intro hk'
        rw [List.foldl_cons]
        rw [addKeys_all_mem r' K (by
          intro p hp
          rw [← hk' r' (List.mem_cons_self r' rs'')]
          exact List.mem_map.mpr ⟨p, hp, rfl⟩)]
        exact ih' (fun q hq => hk' q (List.mem_cons_of_mem _ hq))
    exact this rs (fun q hq => hk q (List.mem_cons_of_mem _ hq))

/-- A cell satisfies the numeric-range invariant: if it is numeric, its
value lies in the closed interval from 0 to 10^12. -/
def CellOk (c : Cell) : Prop := ∀ q : ℚ, c = Cell.num q → 0 ≤ q ∧ q ≤ (10 : ℚ) ^ 12

def rowsOk (rows : List (List (String × Cell))) : Prop :=
  ∀ r ∈ rows, ∀ p ∈ r, CellOk p.2

lemma cellOk_str (s : String) : CellOk (Cell.str s) := fun _ h => Cell.noConfusion h

lemma cellCoerce_ok (c : Cell) (hc : CellOk c) : CellOk (cellCoerce c) := by
  cases c with
  | str s =>
    intro q h
    have hq : moneyCoerce s.data = q := by
      injection h
    rw [← hq]
    exact ⟨moneyCoerce_nonneg s.data, moneyCoerce_le s.data⟩
  | num q' => exact hc

lemma dinsert_vals {α : Type} (P : α → Prop) :
    ∀ (d : List (String × α)) (k : String) (v : α), (∀ p ∈ d, P p.2) → P v →
    ∀ p ∈ dinsert d k v, P p.2 := by
  intro d
  induction d with
  | nil =>
    intro k v _ hv p hp
    rcases List.mem_singleton.mp hp with rfl
    exact hv
  | cons r rs ih =>
    intro k v hd hv p hp
    rw [dinsert] at hp
    by_cases hr : r.1 = k
    · rw [if_pos hr] at hp
      rcases List.mem_cons.mp hp with rfl | hp'
      · exact hv
      · exact hd p (List.mem_cons_of_mem _ hp')
    · rw [if_neg hr] at hp
      rcases List.mem_cons.mp hp with rfl | hp'
      · exact hd p (List.mem_cons_self _ _)
      · exact ih k v (fun q hq => hd q (List.mem_cons_of_mem _ hq)) hv p hp'

lemma rowOf_cells (colMap : List (String × String)) (it : Item) :
    ∀ p ∈ rowOf colMap it, ∃ s, p.2 = Cell.str s := by
  unfold rowOf
  have hgen : ∀ (cm : List (String × String)) (acc : List (String × Cell)),
      (∀ p ∈ acc, ∃ s, p.2 = Cell.str s) →
      ∀ p ∈ cm.foldl
        (fun r p => dinsert r p.2 (Cell.str (lookupD (itemDict it.column_values) p.1 "")))
        acc, ∃ s, p.2 = Cell.str s := by
    intro cm
    induction cm with
    | nil => intro acc hacc p hp; exact hacc p hp
    | cons x xs ih =>
      intro acc hacc p hp
      rw [List.foldl_cons] at hp
      exact ih _ (dinsert_vals (fun c => ∃ s, c = Cell.str s) acc x.2 _ hacc ⟨_, rfl⟩) p hp
  intro p hp
  exact hgen colMap [("Item Name", Cell.str it.name)]
    (by
      intro q hq
      rcases List.mem_singleton.mp hq with rfl
      exact ⟨_, rfl⟩) p hp

lemma rowsOk_coerceColumn (col : String) (rows : List (List (String × Cell)))
    (h : rowsOk rows) : rowsOk (coerceColumn col rows) := by
  intro r hr p hp
  unfold coerceColumn at hr
  rcases List.mem_map.mp hr with ⟨r0, hr0, rfl⟩
  rcases List.mem_map.mp hp with ⟨p0, hp0, rfl⟩
  by_cases hc : p0.1 = col
  · rw [if_pos hc]
    exact cellCoerce_ok p0.2 (h r0 hr0 p0 hp0)
  · rw [if_neg hc]
    exact h r0 hr0 p0 hp0

lemma rowsOk_moneyFold (cols : List String) :
    ∀ (rows : List (List (String × Cell))), rowsOk rows →
    rowsOk (cols.foldl (fun rs c => if isMoneyTitle c then coerceColumn c rs else rs) rows) := by
  induction cols with
  | nil => intro rows h; exact h
  | cons c cs ih =>
    intro rows h
    rw [List.foldl_cons]
    by_cases hc : isMoneyTitle c = true
    · rw [if_pos hc]
      exact ih _ (rowsOk_coerceColumn c rows h)
    · rw [if_neg hc]
      exact ih _ h

lemma rowsOk_rename (rows : List (List (String × Cell))) (h : rowsOk rows) :
    rowsOk (rows.map (fun r => r.map (fun p => (sanitizeTitle p.1, p.2)))) := by
  intro r hr p hp
  rcases List.mem_map.mp hr with ⟨r0, hr0, rfl⟩
  rcases List.mem_map.mp hp with ⟨p0, hp0, rfl⟩
  exact h r0 hr0 p0 hp0

lemma fetchAndClean_rowsOk (input : FetchInput) : rowsOk (fetchAndClean input).1.rows := by
  cases input with
  | exn m => intro r hr; simp [fetchAndClean, emptyDF] at hr
  | ok errs boards =>
    cases errs with
    | some es =>
      cases es with
      | nil => intro r hr; simp [fetchAndClean, emptyDF] at hr
      | cons e es' => intro r hr; simp [fetchAndClean, emptyDF] at hr
    | none =>
      cases boards with
      | nil => intro r hr; simp [fetchAndClean, emptyDF] at hr
      | cons b bs =>
        show rowsOk (cleanDF (flattenBoard b)).rows
        unfold cleanDF flattenBoard
        dsimp only
        apply rowsOk_moneyFold
        apply rowsOk_rename
        intro r hr p hp
        rcases List.mem_map.mp hr with ⟨it, _, rfl⟩
        rcases rowOf_cells (colMapOf b.columns) it p hp with ⟨s, hs⟩
        rw [hs]
        exact cellOk_str s

/-- C1: for every cell of a money column, the stored value is obtained by
stripping every character that is not a digit or a decimal point, parsing
the remainder as a number, substituting 0 on parse failure, and zeroing any
result exceeding 10^12 — the coercion embedded from the code coincides with
the coercion phrased after the spec's words on every input — and the raw
text "$1,200.50" yields exactly 1200.50. -/
theorem money_coercion_matches_spec :
    (∀ l : List Char, moneyCoerce l = moneyCoerceSpec l) ∧
    moneyCoerce "$1,200.50".data = 1200.5 := by
  constructor
  · intro l
    unfold moneyCoerce moneyCoerceSpec
    dsimp only
    rw [toNumericF_eq_specParse]
    rfl
  · exact moneyCoerce_dollar_example

/-- C2: every numeric cell of every table the pipeline can produce lies in
the closed interval from 0 to 10^12; a value parsing above the ceiling
(the 13-digit "5551234567890") is stored as 0, not clamped; and missing
numeric text (the empty cell) is stored as 0, never as a null. -/
theorem numeric_cells_bounded :
    (∀ input : FetchInput, ∀ r ∈ (fetchAndClean input).1.rows, ∀ p ∈ r, ∀ q : ℚ,
      p.2 = Cell.num q → 0 ≤ q ∧ q ≤ (10 : ℚ) ^ 12) ∧
    moneyCoerce "5551234567890".data = 0 ∧
    moneyCoerce "".data = 0 := by
  refine ⟨?_, moneyCoerce_phone_example, moneyCoerce_empty⟩
  intro input r hr p hp q hq
  exact fetchAndClean_rowsOk input r hr p hp q hq

/-- Witness for numeric_cells_bounded: a concrete one-item board with a
money column; its coerced cell is bounded. -/
theorem numeric_cells_bounded_witness :
    0 ≤ moneyCoerce "5".data ∧ moneyCoerce "5".data ≤ (10 : ℚ) ^ 12 :=
  numeric_cells_bounded.1
    (FetchInput.ok none [⟨[⟨"c", "Value"⟩], [⟨"A", [⟨"c", "5"⟩]⟩]⟩])
    _ (List.mem_singleton.mpr rfl)
    _ (List.mem_cons_of_mem _ (List.mem_cons_self _ _))
    _ rfl

/-- C4: for a response board (with distinct column ids, distinct non-name
titles none of which is "Item Name") the flattener yields one row per item,
every row's key list is "Item Name" followed by the non-name descriptor
titles (descriptor count + 1 entries), and a column an item did not
populate holds the empty string. -/
theorem flattener_shape (b : Board) (_hitems : b.items ≠ [])
    (hids : ((nonNameCols b.columns).map ColumnDesc.id).Nodup)
    (htitles : ((nonNameCols b.columns).map ColumnDesc.title).Nodup)
    (hin : ¬("Item Name" ∈ (nonNameCols b.columns).map ColumnDesc.title)) :
    (flattenBoard b).rows.length = b.items.length ∧
    (∀ r ∈ (flattenBoard b).rows,
      r.map Prod.fst = "Item Name" :: (nonNameCols b.columns).map ColumnDesc.title ∧
      r.length = (nonNameCols b.columns).length + 1) ∧
    (∀ it ∈ b.items, ∀ c ∈ nonNameCols b.columns,
      (∀ v ∈ it.column_values, ¬(v.id = c.id)) →
      (c.title, Cell.str "") ∈ rowOf (colMapOf b.columns) it) := by
  have hmap := colMapOf_eq b.columns hids
  have hsnd : (colMapOf b.columns).map Prod.snd =
      (nonNameCols b.columns).map ColumnDesc.title := by
    rw [hmap, List.map_map]
    rfl
  have hnd2 : ((colMapOf b.columns).map Prod.snd).Nodup := by
    rw [hsnd]; exact htitles
  have hin2 : ¬("Item Name" ∈ (colMapOf b.columns).map Prod.snd) := by
    rw [hsnd]; exact hin
  refine ⟨?_, ?_, ?_⟩
  · show (b.items.map (rowOf (colMapOf b.columns))).length = _
    exact List.length_map _ _
  · intro r hr
    have hr' : r ∈ b.items.map (rowOf (colMapOf b.columns)) := hr
    rcases List.mem_map.mp hr' with ⟨it, _, rfl⟩
    rw [rowOf_eq _ it hnd2 hin2]
    constructor
    · rw [List.map_cons]
      have hmm : (((colMapOf b.columns).map
          (fun p => (p.2, Cell.str (lookupD (itemDict it.column_values) p.1 "")))).map
            Prod.fst) = (colMapOf b.columns).map Prod.snd := by
        rw [List.map_map]
        rfl
      rw [hmm, hsnd]
    · rw [List.length_cons, List.length_map, hmap, List.length_map]
  · intro it _ c hc hnone
    rw [rowOf_eq _ it hnd2 hin2]
    apply List.mem_cons_of_mem
    have hcm : (c.id, c.title) ∈ colMapOf b.columns := by
      rw [hmap]
      exact List.mem_map.mpr ⟨c, hc, rfl⟩
    have h2 : (c.title, Cell.str (lookupD (itemDict it.column_values) c.id "")) ∈
        (colMapOf b.columns).map
          (fun p => (p.2, Cell.str (lookupD (itemDict it.column_values) p.1 ""))) :=
      List.mem_map.mpr ⟨(c.id, c.title), hcm, rfl⟩
    rw [lookupD_itemDict_default it.column_values c.id hnone] at h2
    exact h2

/-- Witness for flattener_shape: a two-column board with one sparse item;
the unpopulated Stage column holds the empty string. -/
theorem flattener_shape_witness :
    ("Stage", Cell.str "") ∈
      rowOf (colMapOf [⟨"c1", "Deal Value"⟩, ⟨"c2", "Stage"⟩]) ⟨"A", [⟨"c1", "100"⟩]⟩ :=
  (flattener_shape ⟨[⟨"c1", "Deal Value"⟩, ⟨"c2", "Stage"⟩], [⟨"A", [⟨"c1", "100"⟩]⟩]⟩
      (by decide) (by decide) (by decide) (by decide)).2.2
    ⟨"A", [⟨"c1", "100"⟩]⟩ (by decide) ⟨"c2", "Stage"⟩ (by decide) (by decide)

/-- C5 counterexample: with one descriptor and zero items the pipeline
returns a table whose column set is empty, not the full column set
{"Item Name", "Deal Value"} the claim promises. -/
theorem zero_items_full_columns_refuted :
    (fetchAndClean (FetchInput.ok none [⟨[⟨"c1", "Deal Value"⟩], []⟩])).1.columns = [] ∧
    ¬((fetchAndClean (FetchInput.ok none [⟨[⟨"c1", "Deal Value"⟩], []⟩])).1.columns =
      ["Item Name", "Deal Value"]) := by decide

/-- C5 (amended): with zero raw items (and no schema error) the pipeline
returns, without raising, a table with zero rows and an empty column set —
pandas derives a DataFrame's columns from the row dicts, and there are
none. -/
theorem zero_items_empty_table (cols : List ColumnDesc) :
    fetchAndClean (FetchInput.ok none [⟨cols, []⟩]) = (⟨[], []⟩, none) := rfl

/-- C6: every upstream failure — an exception during fetch/parse, a
non-empty errors list, an errors key with an empty list, or a missing
board — yields the empty table together with a user-visible error message;
fetchAndClean is total, so no exception propagates. -/
theorem fetch_failure_yields_empty_table :
    (∀ m : String, fetchAndClean (FetchInput.exn m) =
      (emptyDF, some ("Fetch Error: " ++ m))) ∧
    (∀ (e : String) (rest : List String) (boards : List Board),
      fetchAndClean (FetchInput.ok (some (e :: rest)) boards) =
        (emptyDF, some ("Monday API Error: " ++ e))) ∧
    (∀ boards : List Board, fetchAndClean (FetchInput.ok (some []) boards) =
      (emptyDF, some "Fetch Error: list index out of range")) ∧
    fetchAndClean (FetchInput.ok none []) =
      (emptyDF, some "Fetch Error: list index out of range") :=
  ⟨fun _ => rfl, fun _ _ _ => rfl, fun _ => rfl, rfl⟩

/-- C3: a column is classified numeric iff its lower-cased title contains
at least one money keyword as a substring and none of the exclude
keywords; and a column titled "Probability" is never coerced to numeric. -/
theorem money_classifier_characterization :
    (∀ title : String, isMoneyTitle title = true ↔
      ((∃ k ∈ moneyKeywords, ∃ p s, (lowerStr title).data = p ++ (k.data ++ s)) ∧
       (∀ k ∈ excludeKeywords, ¬∃ p s, (lowerStr title).data = p ++ (k.data ++ s)))) ∧
    isMoneyTitle "Probability" = false := by
  refine ⟨fun title => ?_, by decide⟩
  unfold isMoneyTitle
  rw [Bool.and_eq_true, Bool.not_eq_true', List.any_eq_true, List.any_eq_false]
  constructor
  · rintro ⟨⟨k, hk, hsub⟩, hexc⟩
    refine ⟨⟨k, hk, (lsub_iff _ _).mp hsub⟩, ?_⟩
    intro k' hk' hex
    exact hexc k' hk' ((lsub_iff _ _).mpr hex)
  · rintro ⟨⟨k, hk, hex⟩, hexc⟩
    refine ⟨⟨k, hk, (lsub_iff _ _).mpr hex⟩, ?_⟩
    intro k' hk' hb
    exact hexc k' hk' ((lsub_iff _ _).mp hb)

/-- C7: the query engine is total and returns a string in every case: an
exception in generation, execution or narration yields the message with
the "⚠️ Agent Logic Error: " marker in front; and when the executed
snippet binds no result variable, the narration is invoked on the
"No result returned" sentinel, whose text the engine then returns. -/
theorem query_engine_never_raises :
    (∀ (ex : String → ExecResult) (narr : String → CallResult) (m : String),
      runBiAgent (CallResult.raises m) ex narr = agentErrorTag ++ m) ∧
    (∀ (t : String) (ex : String → ExecResult) (narr : String → CallResult) (m : String),
      ex (genToCode t) = ExecResult.raises m →
      runBiAgent (CallResult.returns t) ex narr = agentErrorTag ++ m) ∧
    (∀ (t : String) (ex : String → ExecResult) (narr : String → CallResult)
      (vars : List (String × String)) (m : String),
      ex (genToCode t) = ExecResult.binds vars →
      narr ((lookupOpt vars "result").getD "No result returned") = CallResult.raises m →
      runBiAgent (CallResult.returns t) ex narr = agentErrorTag ++ m) ∧
    (∀ (t : String) (ex : String → ExecResult) (narr : String → CallResult)
      (vars : List (String × String)) (out : String),
      ex (genToCode t) = ExecResult.binds vars →
      lookupOpt vars "result" = none →
      narr "No result returned" = CallResult.returns out →
      runBiAgent (CallResult.returns t) ex narr = out) := by
  refine ⟨fun ex narr m => rfl, ?_, ?_, ?_⟩
  · intro t ex narr m hex
    unfold runBiAgent
    dsimp only
    rw [hex]
  · intro t ex narr vars m hex hnarr
    unfold runBiAgent
    dsimp only
    rw [hex]
    dsimp only
    rw [hnarr]
  · intro t ex narr vars out hex hlk hnarr
    unfold runBiAgent
    dsimp only
    rw [hex]
    dsimp only
    rw [hlk]
    rw [show (none : Option String).getD "No result returned" = "No result returned" from rfl]
    rw [hnarr]

/-- Witness for query_engine_never_raises: a concrete run in which the
snippet binds no result variable; the engine narrates the sentinel. -/
theorem query_engine_never_raises_witness :
    runBiAgent (CallResult.returns "x = 1")
      (fun _ => ExecResult.binds [("x", "1")])
      (fun v => CallResult.returns ("Summary: " ++ v)) =
      "Summary: " ++ "No result returned" :=
  query_engine_never_raises.2.2.2 "x = 1" _ _ [("x", "1")] _ rfl (by decide) rfl

/-- C8 counterexample: fence matching is not case-insensitive — the
upper-case leading marker of "```PYTHON\nx = 1\n```" survives cleaning
(only the trailing lower-case fence is stripped), so the snippet is not
reduced to "x = 1". -/
theorem fence_strip_case_insensitive_refuted :
    cleanCodeChars "```PYTHON\nx = 1\n```".data = "```PYTHON\nx = 1".data ∧
    ¬(cleanCodeChars "```PYTHON\nx = 1\n```".data = "x = 1".data) := by decide

/-- C8 (amended): fence markers are stripped matching case-sensitively —
a completion wrapped in the exact lower-case markers (with no backtick
inside the snippet) is reduced to the stripped snippet, in multiline
mode. -/
theorem fence_strip_lowercase_only (s : String)
    (hs : ∀ c ∈ s.data, ¬(c = Char.ofNat 96)) :
    genToCode ("```python\n" ++ s ++ "\n```") = ⟨stripL s.data⟩ := by
  unfold genToCode
  have hd : ("```python\n" ++ s ++ "\n```").data =
      "```python\n".data ++ s.data ++ "\n```".data := by
    rw [String.data_append, String.data_append]
  rw [hd]
  exact congrArg String.mk (cleanCodeChars_wrapped s.data hs)

/-- Witness for fence_strip_lowercase_only at a concrete snippet. -/
theorem fence_strip_lowercase_only_witness :
    genToCode ("```python\n" ++ "x = 1" ++ "\n```") = ⟨stripL "x = 1".data⟩ :=
  fence_strip_lowercase_only "x = 1" (by decide)

/-- C9: sanitization leaves only word characters and whitespace in a
column title (no punctuation), and it is idempotent. -/
theorem sanitize_no_punctuation_idem (s : String) :
    (∀ c ∈ (sanitizeTitle s).data, wordChar c = true ∨ wsChar c = true) ∧
    sanitizeTitle (sanitizeTitle s) = sanitizeTitle s := by
  constructor
  · intro c hc
    simpa using sanitizeChars_mem hc
  · show String.mk (sanitizeChars (sanitizeTitle s).data) = String.mk (sanitizeChars s.data)
    exact congrArg String.mk (sanitizeChars_idem s.data)

/-- Witness for sanitize_no_punctuation_idem at a concrete title. -/
theorem sanitize_no_punctuation_idem_witness :
    (wordChar 'D' = true ∨ wsChar 'D' = true) ∧
    sanitizeTitle (sanitizeTitle "Deal Value ($)") = sanitizeTitle "Deal Value ($)" :=
  ⟨(sanitize_no_punctuation_idem "Deal Value ($)").1 'D' (by decide),
    (sanitize_no_punctuation_idem "Deal Value ($)").2⟩

/-- C10: the minus sign is stripped with every other non-digit character
before parsing, so a negative money text is stored as its positive
magnitude: prepending a minus sign never changes the coerced value, and
"-100" is stored as 100. -/
theorem negative_money_text_made_positive :
    (∀ s : List Char, moneyCoerce ('-' :: s) = moneyCoerce s) ∧
    moneyCoerce "-100".data = 100 :=
  ⟨fun s => moneyCoerce_strip_head (by decide) s, moneyCoerce_minus100⟩
